import Mathlib

/-!
Verification of the bloom-gateway client (pkg/bloomgateway/client.go):
shallow embedding of the merge/dedup pipeline (`mergeSeries`, `mergeChunkSets`),
the fan-out of `FilterChunks` and the ordered-fallback helper `doForAddrs`,
with theorems settling the specified properties.

Machine integers (`uint64` fingerprints) are modelled as `Nat`: the code only
compares them, never overflows.  `ShortRef` values (chunk references) are
opaque totally-ordered values in the code; they are modelled as `Nat`
carrying the comparator order (`Cmp`/`Less`/`Equal` become `<`/`=` on `Nat`).
-/

namespace BloomGateway

/-- Model of `logproto.GroupedChunkRefs`: a series fingerprint, its tenant,
and the list of chunk references (`ShortRef`s, modelled as `Nat`). -/
structure GroupedChunkRefs where
  fingerprint : Nat
  tenant : String
  refs : List Nat
deriving DecidableEq, Repr

/-- Model of `blockWithSeries`: one block identifier (its `String()` form)
paired with the series groups the block may filter. -/
structure BlockWithSeries where
  block : String
  series : List GroupedChunkRefs
deriving DecidableEq, Repr

/-- Model of `bloomshipper.Interval`: query time bounds, passed through. -/
structure Interval where
  startTs : Int
  endTs : Int
deriving DecidableEq, Repr

/-- Model of `logproto.FilterChunkRefRequest` as built by `FilterChunks`:
interval bounds, the (sorted) groups, the shard's block ids, and the opaque
query plan (modelled as an opaque `String`). -/
structure FilterChunkRefRequest where
  fromTs : Int
  throughTs : Int
  refs : List GroupedChunkRefs
  blocks : List String
  plan : String
deriving DecidableEq, Repr

/-- Model of `addrWithGroups`: one destination address, the block ids routed
there, and the concatenation of their series groups. -/
structure AddrWithGroups where
  addr : String
  blocks : List String
  groups : List GroupedChunkRefs
deriving DecidableEq, Repr

/-! ## mergeChunkSets (client.go lines 337-367)

The two-pointer union-merge of two `ShortRef` slices.  The Go loop walks both
slices; it is embedded with explicit fuel (`s1.length + s2.length` steps always
suffice) so that the definition is structurally recursive and kernel-evaluable. -/

/-- Fuelled body of `mergeChunkSets`: one fuel unit per emitted element.
`a.Equal b` is `a = b` and `a.Less b` is `a < b` for the modelled refs. -/
def mergeCS : Nat → List Nat → List Nat → List Nat
  | 0, s1, s2 => s1 ++ s2
  | _ + 1, [], s2 => s2
  | _ + 1, a :: s1, [] => a :: s1
  | fuel + 1, a :: s1, b :: s2 =>
    if a = b then a :: mergeCS fuel s1 s2
    else if a < b then a :: mergeCS fuel s1 (b :: s2)
    else b :: mergeCS fuel (a :: s1) s2

/-- Model of `mergeChunkSets`: merges and deduplicates two sorted slices of
shortRefs.  The fuel `s1.length + s2.length` is an upper bound on the number
of loop iterations in the source, so the fuel-exhausted branch is never hit. -/
def mergeChunkSets (s1 s2 : List Nat) : List Nat :=
  mergeCS (s1.length + s2.length) s1 s2

/-! ## The merge closure of mergeSeries (client.go lines 315-327) -/

/-- Model of `slices.IsSortedFunc(refs, Cmp)`: adjacent elements are
non-decreasing under the comparator. -/
def isSortedRefs : List Nat → Bool
  | [] => true
  | [_] => true
  | a :: b :: t => a ≤ b && isSortedRefs (b :: t)

/-- Model of the defensive sort in the merge closure: sort the refs with
`slices.SortFunc` only when `slices.IsSortedFunc` fails. -/
def ensureSortedRefs (l : List Nat) : List Nat :=
  if isSortedRefs l then l else l.insertionSort (· ≤ ·)

/-- Model of the `merge` closure passed to the deduplication stage
(client.go lines 315-327): keep `a`'s fingerprint and tenant, union the
(defensively sorted) ref sets. -/
def mergeGroups (a b : GroupedChunkRefs) : GroupedChunkRefs :=
  { fingerprint := a.fingerprint
    tenant := a.tenant
    refs := mergeChunkSets (ensureSortedRefs a.refs) (ensureSortedRefs b.refs) }

/-! ## The k-way merge and dedup stages (client.go lines 298-331)

`mergeSeries` builds peeking iterators over each (sorted) input list, merges
them with `v1.NewHeapIterator` keyed on `Fingerprint`, deduplicates
consecutive equal fingerprints with `v1.NewDedupingIter`, and collects the
stream with `v1.CollectInto`.  The iterator implementations live in
`pkg/storage/bloom/v1`, outside the provided sources; they are modelled from
the spec below. -/

/-- Modelled from the spec: the k-way merge of the sorted per-shard streams
(`v1.NewHeapIterator` over `v1.NewPeekingIter`/`v1.NewSliceIter`, not in the
provided sources).  Spec: "Merge all N sequences via a k-way merge (min-heap
keyed by Fingerprint) into one ascending stream; ties (equal Fingerprint
across sources) are emitted consecutively but not yet merged."  Modelled as
an iterated binary merge keyed on Fingerprint, which produces the same
ascending stream (tie order among sources is unspecified by the spec and
does not affect the deduplicated result).  Fuelled like `mergeCS`. -/
def mergeFpStreams : Nat → List GroupedChunkRefs → List GroupedChunkRefs → List GroupedChunkRefs
  | 0, l1, l2 => l1 ++ l2
  | _ + 1, [], l2 => l2
  | _ + 1, a :: l1, [] => a :: l1
  | fuel + 1, a :: l1, b :: l2 =>
    if a.fingerprint ≤ b.fingerprint then a :: mergeFpStreams fuel l1 (b :: l2)
    else b :: mergeFpStreams fuel (a :: l1) l2

/-- Binary merge of two fingerprint-sorted streams, with sufficient fuel. -/
def merge2 (l1 l2 : List GroupedChunkRefs) : List GroupedChunkRefs :=
  mergeFpStreams (l1.length + l2.length) l1 l2

/-- Modelled from the spec: the ascending stream produced by the min-heap
k-way merge over all input streams, as the fold of binary merges. -/
def heapMerge (ls : List (List GroupedChunkRefs)) : List GroupedChunkRefs :=
  ls.foldr merge2 []

/-- Modelled from the spec: the deduplication stage (`v1.NewDedupingIter`,
not in the provided sources).  Spec: "whenever two (or more) consecutive
entries share a Fingerprint, combines them ... the process repeats pairwise
if more than two sources share a Fingerprint."  `cur` is the entry
accumulated so far; a following entry with the same fingerprint is folded
into it with the source's `merge` closure (`mergeGroups`), otherwise `cur`
is emitted. -/
def dedupGo : GroupedChunkRefs → List GroupedChunkRefs → List GroupedChunkRefs
  | cur, [] => [cur]
  | cur, b :: rest =>
    if cur.fingerprint = b.fingerprint then dedupGo (mergeGroups cur b) rest
    else cur :: dedupGo b rest

/-- Modelled from the spec: the deduplicated stream collected by
`v1.CollectInto` (the caller-supplied buffer is an allocation hint only and
is not modelled). -/
def dedupMerge : List GroupedChunkRefs → List GroupedChunkRefs
  | [] => []
  | a :: rest => dedupGo a rest

/-- Non-strict fingerprint order used by the sorts and the heap merge. -/
def fpLe (a b : GroupedChunkRefs) : Prop := a.fingerprint ≤ b.fingerprint

instance : DecidableRel fpLe := fun a b => inferInstanceAs (Decidable (a.fingerprint ≤ b.fingerprint))

instance : IsTotal GroupedChunkRefs fpLe := ⟨fun a b => Nat.le_total a.fingerprint b.fingerprint⟩

instance : IsTrans GroupedChunkRefs fpLe := ⟨fun _ _ _ h h' => Nat.le_trans h h'⟩

/-- Strict fingerprint order: the order of the deduplicated output stream. -/
def fpLt (a b : GroupedChunkRefs) : Prop := a.fingerprint < b.fingerprint

instance : DecidableRel fpLt := fun a b => inferInstanceAs (Decidable (a.fingerprint < b.fingerprint))

/-- The stream `[a, a, b, b, ...]` obtained by merging a strictly sorted
stream with itself; used for the idempotence property. -/
def doubled : List GroupedChunkRefs → List GroupedChunkRefs
  | [] => []
  | a :: t => a :: a :: doubled t

/-- Model of `sort.Slice(inp, ...)` keyed on `Fingerprint` (an arbitrary
comparison sort; modelled as insertion sort, which agrees with it on the
fingerprint order). -/
def sortByFp (l : List GroupedChunkRefs) : List GroupedChunkRefs :=
  l.insertionSort fpLe

/-- Model of `mergeSeries` (client.go lines 294-334): sort each input list by
fingerprint, k-way merge the sorted streams, and deduplicate consecutive
entries sharing a fingerprint by unioning their chunk refs.  The `buf`
argument of the source is an allocation optimization and the returned error
is always nil for slice-backed iterators, so neither is modelled. -/
def mergeSeries (input : List (List GroupedChunkRefs)) : List GroupedChunkRefs :=
  dedupMerge (heapMerge (input.map sortByFp))

/-! ## FilterChunks and doForAddrs (client.go lines 205-289 and 372-390)

The client's collaborators are modelled as oracle functions gathered in an
environment: the jump-hash router (`c.pool.Addr`) and the connection pool
(`c.pool.GetClientFor`) live in this repository but outside the provided
sources, so they are modelled from the spec as arbitrary fallible functions;
the gRPC client is the remote collaborator and is likewise an arbitrary
function from request to response.  Errors are modelled as `String`s (the
wrapped message text).  The call also produces a trace of observable events
(routing lookups and issued RPCs) used to state the no-network properties. -/

/-- A usable client handle: the filter RPC itself, from request to either
the filtered groups (`resp.ChunkRefs`) or an RPC error. -/
def RpcClient : Type := FilterChunkRefRequest → Except String (List GroupedChunkRefs)

/-- Modelled from the spec: the collaborators of `FilterChunks` that are
outside the provided sources.  `addrOf` is the Shard Router lookup
(`c.pool.Addr`, §4.1: resolves a block key to an owner address or fails with
a routing error); `getClientFor` is the Connection Access Layer
(`c.pool.GetClientFor`, §4.2: resolves an address to a live client handle or
fails with a connection error). -/
structure Env where
  addrOf : String → Except String String
  getClientFor : String → Except String RpcClient

/-- Observable events of one call: a routing lookup for a block key, or an
outbound filter RPC to an address. -/
inductive Event where
  | route (key : String)
  | rpc (addr : String) (req : FilterChunkRefRequest)

/-- Whether an event is an outbound RPC. -/
def Event.isRpc : Event → Bool
  | .route _ => false
  | .rpc _ _ => true

/-- Model of `doForAddrs` (client.go lines 372-390): sequentially try each
candidate address; a failed client acquisition records the error and moves
on; a failed callback records the error and moves on; the first success
returns nil.  After the loop the last recorded error (nil when the address
list was empty) is returned.  The callback's writes to surrounding state
(`results[i]` in the source) are modelled by threading a state `σ`. -/
def doForAddrsGo {σ : Type} (getClientFor : String → Except String RpcClient)
    (fn : RpcClient → σ → Option String × σ) :
    List String → Option String → σ → Option String × σ
  | [], err, s => (err, s)
  | addr :: rest, _, s =>
    match getClientFor addr with
    | .error e => doForAddrsGo getClientFor fn rest (some e) s
    | .ok client =>
      match fn client s with
      | (some e, s') => doForAddrsGo getClientFor fn rest (some e) s'
      | (none, s') => (none, s')

/-- Model of `doForAddrs` with the source's initial nil error. -/
def doForAddrs {σ : Type} (getClientFor : String → Except String RpcClient)
    (addrs : List String) (fn : RpcClient → σ → Option String × σ) (s : σ) :
    Option String × σ :=
  doForAddrsGo getClientFor fn addrs none s

/-- Model of the partitioning loop of `FilterChunks` (client.go lines
229-239): group the block's series under the server entry for `addr`,
creating it on first use (the `pos` map holds the index of the unique entry
per address).  The running min/max fingerprint of lines 220-227 is not
modelled: it is written to local variables that no later statement reads. -/
def addServer (servers : List AddrWithGroups) (addr : String) (bws : BlockWithSeries) :
    List AddrWithGroups :=
  if servers.any (fun s => s.addr = addr) then
    servers.map (fun s =>
      if s.addr = addr then
        { s with groups := s.groups ++ bws.series, blocks := s.blocks ++ [bws.block] }
      else s)
  else
    servers ++ [⟨addr, [bws.block], bws.series⟩]

/-- Model of the routing loop of `FilterChunks` (client.go lines 214-240):
resolve each block's owner address, aborting the whole call on the first
routing failure with the wrapped error of line 217; on success fold the
block into the per-address server list.  Every lookup appends a `route`
event. -/
def partitionGo (env : Env) :
    List BlockWithSeries → List AddrWithGroups → List Event →
    Except String (List AddrWithGroups) × List Event
  | [], servers, evs => (.ok servers, evs)
  | bws :: rest, servers, evs =>
    match env.addrOf bws.block with
    | .error e =>
        (.error ("server address for block: " ++ bws.block ++ ": " ++ e),
         evs ++ [.route bws.block])
    | .ok addr => partitionGo env rest (addServer servers addr bws) (evs ++ [.route bws.block])

/-- The per-address work units produced by a successful partitioning pass
(empty when partitioning fails). -/
def partitionServers (env : Env) (blocks : List BlockWithSeries) : List AddrWithGroups :=
  match partitionGo env blocks [] [] with
  | (.ok servers, _) => servers
  | (.error _, _) => []

/-- The request built for one shard (client.go lines 252-258), after the
in-place fingerprint sort of line 247. -/
def mkShardRequest (interval : Interval) (plan : String) (rs : AddrWithGroups) :
    FilterChunkRefRequest :=
  { fromTs := interval.startTs
    throughTs := interval.endTs
    refs := sortByFp rs.groups
    blocks := rs.blocks
    plan := plan }

/-- Model of one fan-out job of `FilterChunks` (client.go lines 244-281):
sort the shard's groups by fingerprint, build the request, and call the RPC
through `doForAddrs` with the shard's single candidate address.  The
callback records the issued RPC, swallows an RPC error by substituting the
shard's (sorted) unfiltered groups as the result (fail-open, lines 260-272),
and always returns nil; so the only error `doForAddrs` can return here is a
client-acquisition error.  Returns the job error, the result slot
(`results[i]`, `none` when the callback never ran), and the events. -/
def shardJob (env : Env) (interval : Interval) (plan : String) (rs : AddrWithGroups) :
    Option String × Option (List GroupedChunkRefs) × List Event :=
  let req := mkShardRequest interval plan rs
  doForAddrs env.getClientFor [rs.addr]
    (fun client s =>
      match client req with
      | .error _ => (none, (some (sortByFp rs.groups), s.2 ++ [.rpc rs.addr req]))
      | .ok refs => (none, (some refs, s.2 ++ [.rpc rs.addr req])))
    (none, [])

/-- Model of the `concurrency.ForEachJob` fan-out (client.go lines 242-281):
one job per server writes its disjoint result slot; the fan-out returns the
first job error, if any.  The jobs are independent (disjoint slots, oracle
collaborators), so they are modelled sequentially; caller cancellation (the
only other failure mode of the fan-out primitive) is outside the model. -/
def runShards (env : Env) (interval : Interval) (plan : String) :
    List AddrWithGroups → List (Option (List GroupedChunkRefs)) × Option String × List Event
  | [] => ([], none, [])
  | rs :: rest =>
    let out := shardJob env interval plan rs
    let outs := runShards env interval plan rest
    (out.2.1 :: outs.1, out.1 <|> outs.2.1, out.2.2 ++ outs.2.2)

/-- Model of `FilterChunks` (client.go lines 205-289).  The tenant argument
is accepted but discarded by the source (its parameter is named `_`).
Returns the call result (`.ok` with the merged groups, or the call-level
error) together with the event trace.  The Go `nil` slice returned on empty
input is modelled as the empty list. -/
def FilterChunks (env : Env) (_tenant : String) (interval : Interval)
    (blocks : List BlockWithSeries) (plan : String) :
    Except String (List GroupedChunkRefs) × List Event :=
  if blocks.isEmpty then (.ok [], [])
  else
    match partitionGo env blocks [] [] with
    | (.error e, evs) => (.error e, evs)
    | (.ok servers, evs) =>
      let fanout := runShards env interval plan servers
      match fanout.2.1 with
      | some e => (.error e, evs ++ fanout.2.2)
      | none => (.ok (mergeSeries (fanout.1.map (fun slot => slot.getD []))), evs ++ fanout.2.2)

/-! ## Concrete environments used as witnesses and counterexamples -/

/-- Environment for the C7 witness: routing always fails. -/
def envRoute : Env :=
  { addrOf := fun _ => .error "no address", getClientFor := fun _ => .error "unused" }

/-- Block list for the C7 witness. -/
def blocksRoute : List BlockWithSeries := [⟨"b1", [⟨5, "t", [1, 2]⟩]⟩]

/-- Environment refuting C4's containment of connection errors: routing
resolves every block to address "a1", but no usable client can be obtained
for any address. -/
def envConn : Env :=
  { addrOf := fun _ => .ok "a1", getClientFor := fun _ => .error "connection refused" }

/-- Block list for the C4 counterexample. -/
def blocksConn : List BlockWithSeries := [⟨"b1", [⟨1, "t", [1]⟩]⟩]

/-- Environment for the C4-amended witness: identity routing, a usable
client everywhere, every RPC failing. -/
def envAmend : Env :=
  { addrOf := fun b => .ok b, getClientFor := fun _ => .ok (fun _ => .error "rpc down") }

/-- Block list for the C4-amended witness. -/
def blocksAmend : List BlockWithSeries := [⟨"b1", [⟨3, "t", [7]⟩]⟩]

/-- The fail-open property of one call: the call succeeds, and every shard
whose filter RPC fails (after a client was obtained) contributes its
original unfiltered groups (in fingerprint-sorted order) to the merged
result: each of its groups has an output entry with the same fingerprint
containing all of its chunk refs. -/
def FailOpen (env : Env) (t : String) (i : Interval) (blocks : List BlockWithSeries)
    (p : String) : Prop :=
  ∃ res, (FilterChunks env t i blocks p).1 = .ok res ∧
    ∀ rs ∈ partitionServers env blocks, ∀ cl, env.getClientFor rs.addr = .ok cl →
      ∀ err, cl (mkShardRequest i p rs) = .error err →
      ∀ g ∈ rs.groups, ∃ e ∈ res, e.fingerprint = g.fingerprint ∧ ∀ c ∈ g.refs, c ∈ e.refs

/-- Client for the C5 scenario: the RPC fails for the shard carrying block
"b2" and returns the filtered group {5, [1]} otherwise. -/
def clientB : RpcClient := fun req =>
  if req.blocks = ["b2"] then .error "rpc fail" else .ok [⟨5, "t", [1]⟩]

/-- Environment for the C5 scenario: identity routing, `clientB` everywhere. -/
def envB : Env := { addrOf := fun b => .ok b, getClientFor := fun _ => .ok clientB }

/-- Block list for the C5 scenario: shard 1 carries {5, [1, 2]}, shard 2
carries {20, [4, 5]}. -/
def blocksB : List BlockWithSeries :=
  [⟨"b1", [⟨5, "t", [1, 2]⟩]⟩, ⟨"b2", [⟨20, "t", [4, 5]⟩]⟩]

/-! ## Lemmas about the union-merge of chunk-ref sets -/

theorem mem_mergeCS : ∀ (fuel : Nat) (s1 s2 : List Nat) (x : Nat),
    x ∈ mergeCS fuel s1 s2 ↔ x ∈ s1 ∨ x ∈ s2
  | 0, s1, s2, x => by simp [mergeCS]
  | _ + 1, [], s2, x => by simp [mergeCS]
  | _ + 1, _ :: _, [], x => by simp [mergeCS]
  | fuel + 1, a :: s1, b :: s2, x => by
    simp only [mergeCS]
    by_cases hab : a = b
    · simp only [if_pos hab, List.mem_cons, mem_mergeCS fuel s1 s2 x]
      subst hab; tauto
    · rw [if_neg hab]
      by_cases hlt : a < b
      · simp only [if_pos hlt, List.mem_cons, mem_mergeCS fuel s1 (b :: s2) x]
        tauto
      · simp only [if_neg hlt, List.mem_cons, mem_mergeCS fuel (a :: s1) s2 x]
        tauto

theorem mergeCS_sorted : ∀ (fuel : Nat) (s1 s2 : List Nat),
    s1.length + s2.length ≤ fuel →
    s1.Pairwise (· < ·) → s2.Pairwise (· < ·) →
    (mergeCS fuel s1 s2).Pairwise (· < ·)
  | 0, s1, s2, hf, _, _ => by
    have h1 : s1 = [] := List.length_eq_zero.mp (by omega)
    have h2 : s2 = [] := List.length_eq_zero.mp (by omega)
    subst h1; subst h2; simp [mergeCS]
  | _ + 1, [], s2, _, _, h2 => by simpa [mergeCS] using h2
  | _ + 1, _ :: _, [], _, h1, _ => by simpa [mergeCS] using h1
  | fuel + 1, a :: s1, b :: s2, hf, h1, h2 => by
    rw [List.pairwise_cons] at h1 h2
    simp only [List.length_cons] at hf
    simp only [mergeCS]
    by_cases hab : a = b
    · subst hab
      rw [if_pos rfl, List.pairwise_cons]
      refine ⟨fun x hx => ?_, mergeCS_sorted fuel s1 s2 (by omega) h1.2 h2.2⟩
      rcases (mem_mergeCS fuel s1 s2 x).mp hx with h | h
      · exact h1.1 x h
      · exact h2.1 x h
    · rw [if_neg hab]
      by_cases hlt : a < b
      · rw [if_pos hlt, List.pairwise_cons]
        refine ⟨fun x hx => ?_,
          mergeCS_sorted fuel s1 (b :: s2) (by simp only [List.length_cons]; omega) h1.2
            (List.pairwise_cons.mpr h2)⟩
        rcases (mem_mergeCS fuel s1 (b :: s2) x).mp hx with h | h
        · exact h1.1 x h
        · rcases List.mem_cons.mp h with rfl | h
          · exact hlt
          · exact lt_trans hlt (h2.1 x h)
      · have hba : b < a := by omega
        rw [if_neg hlt, List.pairwise_cons]
        refine ⟨fun x hx => ?_,
          mergeCS_sorted fuel (a :: s1) s2 (by simp only [List.length_cons]; omega)
            (List.pairwise_cons.mpr h1) h2.2⟩
        rcases (mem_mergeCS fuel (a :: s1) s2 x).mp hx with h | h
        · rcases List.mem_cons.mp h with rfl | h
          · exact hba
          · exact lt_trans hba (h1.1 x h)
        · exact h2.1 x h

theorem mergeCS_length_le : ∀ (fuel : Nat) (s1 s2 : List Nat),
    (mergeCS fuel s1 s2).length ≤ s1.length + s2.length
  | 0, s1, s2 => by simp [mergeCS]
  | _ + 1, [], s2 => by simp [mergeCS]
  | _ + 1, _ :: _, [] => by simp [mergeCS]
  | fuel + 1, a :: s1, b :: s2 => by
    have h1 := mergeCS_length_le fuel s1 s2
    have h2 := mergeCS_length_le fuel s1 (b :: s2)
    have h3 := mergeCS_length_le fuel (a :: s1) s2
    simp only [List.length_cons] at h2 h3
    simp only [mergeCS]
    by_cases hab : a = b
    · simp only [if_pos hab, List.length_cons]; omega
    · rw [if_neg hab]
      by_cases hlt : a < b
      · simp only [if_pos hlt, List.length_cons]; omega
      · simp only [if_neg hlt, List.length_cons]; omega

theorem mergeCS_length_ge : ∀ (fuel : Nat) (s1 s2 : List Nat),
    max s1.length s2.length ≤ (mergeCS fuel s1 s2).length
  | 0, s1, s2 => by simp [mergeCS]
  | _ + 1, [], s2 => by simp [mergeCS]
  | _ + 1, _ :: _, [] => by simp [mergeCS]
  | fuel + 1, a :: s1, b :: s2 => by
    have h1 := mergeCS_length_ge fuel s1 s2
    have h2 := mergeCS_length_ge fuel s1 (b :: s2)
    have h3 := mergeCS_length_ge fuel (a :: s1) s2
    simp only [List.length_cons, Nat.max_le] at h1 h2 h3
    simp only [mergeCS]
    by_cases hab : a = b
    · simp only [if_pos hab, List.length_cons, Nat.max_le]; omega
    · rw [if_neg hab]
      by_cases hlt : a < b
      · simp only [if_pos hlt, List.length_cons, Nat.max_le]; omega
      · simp only [if_neg hlt, List.length_cons, Nat.max_le]; omega

theorem mergeCS_self : ∀ (fuel : Nat) (s : List Nat),
    s.length + s.length ≤ fuel → mergeCS fuel s s = s
  | 0, s, hf => by
    have : s = [] := List.length_eq_zero.mp (by omega)
    subst this; simp [mergeCS]
  | _ + 1, [], _ => by simp [mergeCS]
  | fuel + 1, a :: s, hf => by
    simp only [List.length_cons] at hf
    simp [mergeCS, mergeCS_self fuel s (by omega)]

/-- C3: for every pair of ChunkRef lists A and B that are each sorted
ascending under the strict comparator order and duplicate-free,
`mergeChunkSets A B` is sorted, duplicate-free, has length at least
`max |A| |B|` and at most `|A| + |B|`, and its elements are exactly the set
union of the elements of A and B. -/
theorem mergeChunkSets_union_spec (A B : List Nat)
    (hA : A.Pairwise (· < ·)) (hB : B.Pairwise (· < ·)) :
    (mergeChunkSets A B).Pairwise (· < ·) ∧ (mergeChunkSets A B).Nodup ∧
    max A.length B.length ≤ (mergeChunkSets A B).length ∧
    (mergeChunkSets A B).length ≤ A.length + B.length ∧
    ∀ x, x ∈ mergeChunkSets A B ↔ x ∈ A ∨ x ∈ B := by
  have hs := mergeCS_sorted (A.length + B.length) A B le_rfl hA hB
  exact ⟨hs, hs.imp (fun h => Nat.ne_of_lt h), mergeCS_length_ge _ A B,
    mergeCS_length_le _ A B, fun x => mem_mergeCS _ A B x⟩

/-- Witness for C3 at A = [1, 2], B = [2, 3]. -/
theorem mergeChunkSets_union_spec_witness :
    ([1, 2] : List Nat).Pairwise (· < ·) ∧ ([2, 3] : List Nat).Pairwise (· < ·) ∧
    ((mergeChunkSets [1, 2] [2, 3]).Pairwise (· < ·) ∧ (mergeChunkSets [1, 2] [2, 3]).Nodup ∧
      max ([1, 2] : List Nat).length ([2, 3] : List Nat).length ≤
        (mergeChunkSets [1, 2] [2, 3]).length ∧
      (mergeChunkSets [1, 2] [2, 3]).length ≤
        ([1, 2] : List Nat).length + ([2, 3] : List Nat).length ∧
      ∀ x, x ∈ mergeChunkSets [1, 2] [2, 3] ↔ x ∈ ([1, 2] : List Nat) ∨ x ∈ ([2, 3] : List Nat)) :=
  ⟨by decide, by decide, mergeChunkSets_union_spec [1, 2] [2, 3] (by decide) (by decide)⟩

/-! ## Lemmas about the k-way merge stage -/

theorem mem_mergeFpStreams : ∀ (fuel : Nat) (l1 l2 : List GroupedChunkRefs)
    (g : GroupedChunkRefs), g ∈ mergeFpStreams fuel l1 l2 ↔ g ∈ l1 ∨ g ∈ l2
  | 0, l1, l2, g => by simp [mergeFpStreams]
  | _ + 1, [], l2, g => by simp [mergeFpStreams]
  | _ + 1, _ :: _, [], g => by simp [mergeFpStreams]
  | fuel + 1, a :: l1, b :: l2, g => by
    simp only [mergeFpStreams]
    by_cases h : a.fingerprint ≤ b.fingerprint
    · simp only [if_pos h, List.mem_cons, mem_mergeFpStreams fuel l1 (b :: l2) g]
      tauto
    · simp only [if_neg h, List.mem_cons, mem_mergeFpStreams fuel (a :: l1) l2 g]
      tauto

theorem mergeFpStreams_sorted : ∀ (fuel : Nat) (l1 l2 : List GroupedChunkRefs),
    l1.length + l2.length ≤ fuel →
    l1.Pairwise fpLe → l2.Pairwise fpLe →
    (mergeFpStreams fuel l1 l2).Pairwise fpLe
  | 0, l1, l2, hf, _, _ => by
    have h1 : l1 = [] := List.length_eq_zero.mp (by omega)
    have h2 : l2 = [] := List.length_eq_zero.mp (by omega)
    subst h1; subst h2; simp [mergeFpStreams]
  | _ + 1, [], l2, _, _, h2 => by simpa [mergeFpStreams] using h2
  | _ + 1, _ :: _, [], _, h1, _ => by simpa [mergeFpStreams] using h1
  | fuel + 1, a :: l1, b :: l2, hf, h1, h2 => by
    rw [List.pairwise_cons] at h1 h2
    simp only [List.length_cons] at hf
    simp only [mergeFpStreams]
    by_cases hab : a.fingerprint ≤ b.fingerprint
    · rw [if_pos hab, List.pairwise_cons]
      refine ⟨fun x hx => ?_,
        mergeFpStreams_sorted fuel l1 (b :: l2) (by simp only [List.length_cons]; omega) h1.2
          (List.pairwise_cons.mpr h2)⟩
      rcases (mem_mergeFpStreams fuel l1 (b :: l2) x).mp hx with h | h
      · exact h1.1 x h
      · rcases List.mem_cons.mp h with rfl | h
        · exact hab
        · exact Nat.le_trans hab (h2.1 x h)
    · have hba : b.fingerprint ≤ a.fingerprint := Nat.le_of_not_le hab
      rw [if_neg hab, List.pairwise_cons]
      refine ⟨fun x hx => ?_,
        mergeFpStreams_sorted fuel (a :: l1) l2 (by simp only [List.length_cons]; omega)
          (List.pairwise_cons.mpr h1) h2.2⟩
      rcases (mem_mergeFpStreams fuel (a :: l1) l2 x).mp hx with h | h
      · rcases List.mem_cons.mp h with rfl | h
        · exact hba
        · exact Nat.le_trans hba (h1.1 x h)
      · exact h2.1 x h

theorem mem_merge2 (l1 l2 : List GroupedChunkRefs) (g : GroupedChunkRefs) :
    g ∈ merge2 l1 l2 ↔ g ∈ l1 ∨ g ∈ l2 :=
  mem_mergeFpStreams _ l1 l2 g

theorem merge2_sorted {l1 l2 : List GroupedChunkRefs}
    (h1 : l1.Pairwise fpLe) (h2 : l2.Pairwise fpLe) : (merge2 l1 l2).Pairwise fpLe :=
  mergeFpStreams_sorted _ l1 l2 le_rfl h1 h2

theorem merge2_nil_right : ∀ l : List GroupedChunkRefs, merge2 l [] = l
  | [] => rfl
  | _ :: _ => rfl

theorem mem_heapMerge : ∀ (ls : List (List GroupedChunkRefs)) (g : GroupedChunkRefs),
    g ∈ heapMerge ls ↔ ∃ l ∈ ls, g ∈ l
  | [], g => by simp [heapMerge]
  | l :: ls, g => by
    have : heapMerge (l :: ls) = merge2 l (heapMerge ls) := rfl
    rw [this, mem_merge2, mem_heapMerge ls g]
    simp [List.exists_mem_cons_iff]

theorem heapMerge_sorted : ∀ ls : List (List GroupedChunkRefs),
    (∀ l ∈ ls, l.Pairwise fpLe) → (heapMerge ls).Pairwise fpLe
  | [], _ => by simp [heapMerge]
  | l :: ls, h =>
    merge2_sorted (h l (List.mem_cons_self _ _))
      (heapMerge_sorted ls fun x hx => h x (List.mem_cons_of_mem _ hx))

/-! ## Lemmas about the merge closure and the dedup stage -/

theorem isSortedRefs_iff : ∀ l : List Nat, isSortedRefs l = true ↔ l.Chain' (· ≤ ·)
  | [] => by simp [isSortedRefs]
  | [a] => by simp [isSortedRefs]
  | a :: b :: t => by
    simp only [isSortedRefs, Bool.and_eq_true, decide_eq_true_eq, List.chain'_cons,
      isSortedRefs_iff (b :: t)]

theorem mem_ensureSortedRefs (l : List Nat) (c : Nat) : c ∈ ensureSortedRefs l ↔ c ∈ l := by
  unfold ensureSortedRefs
  split
  · exact Iff.rfl
  · exact List.mem_insertionSort _

theorem ensureSortedRefs_sorted (l : List Nat) : (ensureSortedRefs l).Pairwise (· ≤ ·) := by
  unfold ensureSortedRefs
  split
  · next h => exact List.chain'_iff_pairwise.mp ((isSortedRefs_iff l).mp h)
  · exact List.sorted_insertionSort _ l

theorem ensureSortedRefs_eq {l : List Nat} (h : l.Pairwise (· < ·)) : ensureSortedRefs l = l := by
  have hle : l.Pairwise (· ≤ ·) := h.imp fun h => Nat.le_of_lt h
  unfold ensureSortedRefs
  rw [if_pos ((isSortedRefs_iff l).mpr (List.chain'_iff_pairwise.mpr hle))]

theorem mergeGroups_fingerprint (a b : GroupedChunkRefs) :
    (mergeGroups a b).fingerprint = a.fingerprint := rfl

theorem mem_refs_mergeGroups (a b : GroupedChunkRefs) (c : Nat) :
    c ∈ (mergeGroups a b).refs ↔ c ∈ a.refs ∨ c ∈ b.refs := by
  simp only [mergeGroups, mergeChunkSets, mem_mergeCS, mem_ensureSortedRefs]

theorem mergeGroups_refs_sorted {a b : GroupedChunkRefs}
    (ha : a.refs.Pairwise (· < ·)) (hb : b.refs.Pairwise (· < ·)) :
    (mergeGroups a b).refs.Pairwise (· < ·) := by
  simp only [mergeGroups, mergeChunkSets, ensureSortedRefs_eq ha, ensureSortedRefs_eq hb]
  exact mergeCS_sorted _ _ _ le_rfl ha hb

theorem mergeGroups_self {a : GroupedChunkRefs} (ha : a.refs.Pairwise (· < ·)) :
    mergeGroups a a = a := by
  simp [mergeGroups, mergeChunkSets, ensureSortedRefs_eq ha, mergeCS_self _ a.refs le_rfl]

theorem dedupGo_sorted : ∀ (l : List GroupedChunkRefs) (cur : GroupedChunkRefs),
    (cur :: l).Pairwise fpLe →
    (dedupGo cur l).Pairwise fpLt ∧ ∀ e ∈ dedupGo cur l, cur.fingerprint ≤ e.fingerprint
  | [], cur, _ => by simp [dedupGo]
  | b :: rest, cur, h => by
    rw [List.pairwise_cons] at h
    simp only [dedupGo]
    by_cases hfp : cur.fingerprint = b.fingerprint
    · rw [if_pos hfp]
      have hmc : (mergeGroups cur b :: rest).Pairwise fpLe := by
        rw [List.pairwise_cons]
        refine ⟨fun x hx => ?_, (List.pairwise_cons.mp h.2).2⟩
        have hbx : fpLe b x := (List.pairwise_cons.mp h.2).1 x hx
        show (mergeGroups cur b).fingerprint ≤ x.fingerprint
        rw [mergeGroups_fingerprint, hfp]
        exact hbx
      have ih := dedupGo_sorted rest (mergeGroups cur b) hmc
      refine ⟨ih.1, fun e he => ?_⟩
      have := ih.2 e he
      rwa [mergeGroups_fingerprint] at this
    · rw [if_neg hfp]
      have ih := dedupGo_sorted rest b h.2
      have hcb : cur.fingerprint < b.fingerprint :=
        Nat.lt_of_le_of_ne (h.1 b (List.mem_cons_self _ _)) hfp
      constructor
      · rw [List.pairwise_cons]
        exact ⟨fun e he => Nat.lt_of_lt_of_le hcb (ih.2 e he), ih.1⟩
      · intro e he
        rcases List.mem_cons.mp he with rfl | he'
        · exact Nat.le_refl _
        · exact Nat.le_trans (Nat.le_of_lt hcb) (ih.2 e he')

theorem dedupGo_refs_sorted : ∀ (l : List GroupedChunkRefs) (cur : GroupedChunkRefs),
    cur.refs.Pairwise (· < ·) → (∀ g ∈ l, g.refs.Pairwise (· < ·)) →
    ∀ e ∈ dedupGo cur l, e.refs.Pairwise (· < ·)
  | [], cur, hc, _, e, he => by
    simp only [dedupGo, List.mem_singleton] at he
    subst he; exact hc
  | b :: rest, cur, hc, hl, e, he => by
    simp only [dedupGo] at he
    by_cases hfp : cur.fingerprint = b.fingerprint
    · rw [if_pos hfp] at he
      exact dedupGo_refs_sorted rest (mergeGroups cur b)
        (mergeGroups_refs_sorted hc (hl b (List.mem_cons_self _ _)))
        (fun g hg => hl g (List.mem_cons_of_mem _ hg)) e he
    · rw [if_neg hfp] at he
      rcases List.mem_cons.mp he with rfl | he'
      · exact hc
      · exact dedupGo_refs_sorted rest b (hl b (List.mem_cons_self _ _))
          (fun g hg => hl g (List.mem_cons_of_mem _ hg)) e he'

theorem dedupGo_mem_refs : ∀ (l : List GroupedChunkRefs) (cur : GroupedChunkRefs) (fp c : Nat),
    (∃ e ∈ dedupGo cur l, e.fingerprint = fp ∧ c ∈ e.refs) ↔
    (∃ g ∈ cur :: l, g.fingerprint = fp ∧ c ∈ g.refs)
  | [], cur, fp, c => by simp [dedupGo]
  | b :: rest, cur, fp, c => by
    simp only [dedupGo]
    by_cases hfp : cur.fingerprint = b.fingerprint
    · rw [if_pos hfp, dedupGo_mem_refs rest (mergeGroups cur b) fp c]
      constructor
      · rintro ⟨g, hg, hfpg, hcg⟩
        rcases List.mem_cons.mp hg with heq | hg'
        · subst heq
          rcases (mem_refs_mergeGroups cur b c).mp hcg with h | h
          · exact ⟨cur, List.mem_cons_self _ _, by rwa [mergeGroups_fingerprint] at hfpg, h⟩
          · refine ⟨b, List.mem_cons_of_mem _ (List.mem_cons_self _ _), ?_, h⟩
            rw [mergeGroups_fingerprint] at hfpg
            rw [← hfp]; exact hfpg
        · exact ⟨g, List.mem_cons_of_mem _ (List.mem_cons_of_mem _ hg'), hfpg, hcg⟩
      · rintro ⟨g, hg, hfpg, hcg⟩
        rcases List.mem_cons.mp hg with heq | hg'
        · subst heq
          exact ⟨mergeGroups g b, List.mem_cons_self _ _,
            by rwa [mergeGroups_fingerprint], (mem_refs_mergeGroups _ _ _).mpr (Or.inl hcg)⟩
        rcases List.mem_cons.mp hg' with heq | hg''
        · subst heq
          refine ⟨mergeGroups cur g, List.mem_cons_self _ _, ?_,
            (mem_refs_mergeGroups _ _ _).mpr (Or.inr hcg)⟩
          rw [mergeGroups_fingerprint, hfp]; exact hfpg
        · exact ⟨g, List.mem_cons_of_mem _ hg'', hfpg, hcg⟩
    · rw [if_neg hfp]
      constructor
      · rintro ⟨e, he, hfpe, hce⟩
        rcases List.mem_cons.mp he with heq | he'
        · subst heq; exact ⟨e, List.mem_cons_self _ _, hfpe, hce⟩
        · obtain ⟨g, hg, h1, h2⟩ := (dedupGo_mem_refs rest b fp c).mp ⟨e, he', hfpe, hce⟩
          exact ⟨g, List.mem_cons_of_mem _ hg, h1, h2⟩
      · rintro ⟨g, hg, hfpg, hcg⟩
        rcases List.mem_cons.mp hg with heq | hg'
        · subst heq; exact ⟨g, List.mem_cons_self _ _, hfpg, hcg⟩
        · obtain ⟨e, he, h1, h2⟩ := (dedupGo_mem_refs rest b fp c).mpr ⟨g, hg', hfpg, hcg⟩
          exact ⟨e, List.mem_cons_of_mem _ he, h1, h2⟩

theorem dedupGo_fps : ∀ (l : List GroupedChunkRefs) (cur : GroupedChunkRefs) (fp : Nat),
    (∃ e ∈ dedupGo cur l, e.fingerprint = fp) ↔ ∃ g ∈ cur :: l, g.fingerprint = fp
  | [], cur, fp => by simp [dedupGo]
  | b :: rest, cur, fp => by
    simp only [dedupGo]
    by_cases hfp : cur.fingerprint = b.fingerprint
    · rw [if_pos hfp, dedupGo_fps rest (mergeGroups cur b) fp]
      constructor
      · rintro ⟨g, hg, hfpg⟩
        rcases List.mem_cons.mp hg with heq | hg'
        · subst heq
          exact ⟨cur, List.mem_cons_self _ _, by rwa [mergeGroups_fingerprint] at hfpg⟩
        · exact ⟨g, List.mem_cons_of_mem _ (List.mem_cons_of_mem _ hg'), hfpg⟩
      · rintro ⟨g, hg, hfpg⟩
        rcases List.mem_cons.mp hg with heq | hg'
        · subst heq
          exact ⟨mergeGroups g b, List.mem_cons_self _ _, by rwa [mergeGroups_fingerprint]⟩
        rcases List.mem_cons.mp hg' with heq | hg''
        · subst heq
          refine ⟨mergeGroups cur g, List.mem_cons_self _ _, ?_⟩
          rw [mergeGroups_fingerprint, hfp]; exact hfpg
        · exact ⟨g, List.mem_cons_of_mem _ hg'', hfpg⟩
    · rw [if_neg hfp]
      constructor
      · rintro ⟨e, he, hfpe⟩
        rcases List.mem_cons.mp he with heq | he'
        · subst heq; exact ⟨e, List.mem_cons_self _ _, hfpe⟩
        · obtain ⟨g, hg, h1⟩ := (dedupGo_fps rest b fp).mp ⟨e, he', hfpe⟩
          exact ⟨g, List.mem_cons_of_mem _ hg, h1⟩
      · rintro ⟨g, hg, hfpg⟩
        rcases List.mem_cons.mp hg with heq | hg'
        · subst heq; exact ⟨g, List.mem_cons_self _ _, hfpg⟩
        · obtain ⟨e, he, h1⟩ := (dedupGo_fps rest b fp).mpr ⟨g, hg', hfpg⟩
          exact ⟨e, List.mem_cons_of_mem _ he, h1⟩

theorem dedupGo_doubled : ∀ (l : List GroupedChunkRefs) (cur : GroupedChunkRefs),
    (cur :: l).Pairwise fpLt → (∀ g ∈ cur :: l, g.refs.Pairwise (· < ·)) →
    dedupGo cur (doubled l) = cur :: l
  | [], cur, _, _ => by simp [doubled, dedupGo]
  | b :: t, cur, hs, hr => by
    rw [List.pairwise_cons] at hs
    have hne : cur.fingerprint ≠ b.fingerprint := Nat.ne_of_lt (hs.1 b (List.mem_cons_self _ _))
    show dedupGo cur (b :: b :: doubled t) = cur :: b :: t
    rw [show dedupGo cur (b :: b :: doubled t) =
        cur :: dedupGo b (b :: doubled t) from by simp [dedupGo, hne]]
    rw [show dedupGo b (b :: doubled t) = dedupGo (mergeGroups b b) (doubled t) from by
      simp [dedupGo]]
    rw [mergeGroups_self (hr b (List.mem_cons_of_mem _ (List.mem_cons_self _ _)))]
    rw [dedupGo_doubled t b hs.2 (fun g hg => hr g (List.mem_cons_of_mem _ hg))]

theorem dedupMerge_sorted {l : List GroupedChunkRefs} (h : l.Pairwise fpLe) :
    (dedupMerge l).Pairwise fpLt := by
  cases l with
  | nil => simp [dedupMerge]
  | cons a t => exact (dedupGo_sorted t a h).1

theorem dedupMerge_refs_sorted {l : List GroupedChunkRefs}
    (h : ∀ g ∈ l, g.refs.Pairwise (· < ·)) :
    ∀ e ∈ dedupMerge l, e.refs.Pairwise (· < ·) := by
  cases l with
  | nil => simp [dedupMerge]
  | cons a t =>
    exact dedupGo_refs_sorted t a (h a (List.mem_cons_self _ _))
      (fun g hg => h g (List.mem_cons_of_mem _ hg))

theorem dedupMerge_mem_refs (l : List GroupedChunkRefs) (fp c : Nat) :
    (∃ e ∈ dedupMerge l, e.fingerprint = fp ∧ c ∈ e.refs) ↔
    (∃ g ∈ l, g.fingerprint = fp ∧ c ∈ g.refs) := by
  cases l with
  | nil => simp [dedupMerge]
  | cons a t => exact dedupGo_mem_refs t a fp c

theorem dedupMerge_fps (l : List GroupedChunkRefs) (fp : Nat) :
    (∃ e ∈ dedupMerge l, e.fingerprint = fp) ↔ ∃ g ∈ l, g.fingerprint = fp := by
  cases l with
  | nil => simp [dedupMerge]
  | cons a t => exact dedupGo_fps t a fp

theorem dedupMerge_doubled {l : List GroupedChunkRefs} (hs : l.Pairwise fpLt)
    (hr : ∀ g ∈ l, g.refs.Pairwise (· < ·)) : dedupMerge (doubled l) = l := by
  cases l with
  | nil => simp [doubled, dedupMerge]
  | cons a t =>
    show dedupGo a (a :: doubled t) = a :: t
    rw [show dedupGo a (a :: doubled t) = dedupGo (mergeGroups a a) (doubled t) from by
      simp [dedupGo]]
    rw [mergeGroups_self (hr a (List.mem_cons_self _ _))]
    exact dedupGo_doubled t a hs hr

theorem pairwise_fpLt_unique : ∀ {l : List GroupedChunkRefs}, l.Pairwise fpLt →
    ∀ e ∈ l, ∀ e' ∈ l, e.fingerprint = e'.fingerprint → e = e'
  | [], _, e, he, _, _, _ => absurd he (List.not_mem_nil e)
  | a :: t, hl, e, he, e', he', hfp => by
    rw [List.pairwise_cons] at hl
    rcases List.mem_cons.mp he with h1 | h1
    · rcases List.mem_cons.mp he' with h2 | h2
      · rw [h1, h2]
      · subst h1
        exact absurd hfp (Nat.ne_of_lt (hl.1 e' h2))
    · rcases List.mem_cons.mp he' with h2 | h2
      · subst h2
        exact absurd hfp.symm (Nat.ne_of_lt (hl.1 e h1))
      · exact pairwise_fpLt_unique hl.2 e h1 e' h2 hfp

/-! ## Lemmas about mergeSeries -/

theorem sortByFp_sorted (l : List GroupedChunkRefs) : (sortByFp l).Pairwise fpLe :=
  List.sorted_insertionSort fpLe l

theorem mem_sortByFp (l : List GroupedChunkRefs) (g : GroupedChunkRefs) :
    g ∈ sortByFp l ↔ g ∈ l :=
  List.mem_insertionSort fpLe

theorem sortByFp_eq {l : List GroupedChunkRefs} (h : l.Pairwise fpLe) : sortByFp l = l :=
  List.Sorted.insertionSort_eq h

theorem mem_stream (input : List (List GroupedChunkRefs)) (g : GroupedChunkRefs) :
    g ∈ heapMerge (input.map sortByFp) ↔ ∃ l ∈ input, g ∈ l := by
  rw [mem_heapMerge]
  constructor
  · rintro ⟨l', hl', hg⟩
    obtain ⟨l, hl, rfl⟩ := List.mem_map.mp hl'
    exact ⟨l, hl, (mem_sortByFp l g).mp hg⟩
  · rintro ⟨l, hl, hg⟩
    exact ⟨sortByFp l, List.mem_map_of_mem _ hl, (mem_sortByFp l g).mpr hg⟩

theorem stream_sorted (input : List (List GroupedChunkRefs)) :
    (heapMerge (input.map sortByFp)).Pairwise fpLe :=
  heapMerge_sorted _ (by
    rintro l' hl'
    obtain ⟨l, _, rfl⟩ := List.mem_map.mp hl'
    exact sortByFp_sorted l)

theorem mergeSeries_sorted_fpLt (input : List (List GroupedChunkRefs)) :
    (mergeSeries input).Pairwise fpLt :=
  dedupMerge_sorted (stream_sorted input)

theorem mergeSeries_refs_sorted (input : List (List GroupedChunkRefs))
    (h : ∀ l ∈ input, ∀ g ∈ l, g.refs.Pairwise (· < ·)) :
    ∀ e ∈ mergeSeries input, e.refs.Pairwise (· < ·) :=
  dedupMerge_refs_sorted (by
    intro g hg
    obtain ⟨l, hl, hgl⟩ := (mem_stream input g).mp hg
    exact h l hl g hgl)

theorem mergeSeries_entry (input : List (List GroupedChunkRefs)) (fp : Nat)
    (h : ∃ l ∈ input, ∃ g ∈ l, g.fingerprint = fp) :
    ∃ e ∈ mergeSeries input, e.fingerprint = fp ∧
      (∀ e' ∈ mergeSeries input, e'.fingerprint = fp → e' = e) ∧
      ∀ c, c ∈ e.refs ↔ ∃ l ∈ input, ∃ g ∈ l, g.fingerprint = fp ∧ c ∈ g.refs := by
  obtain ⟨l, hl, g, hg, hfp⟩ := h
  have hstream : ∃ g' ∈ heapMerge (input.map sortByFp), g'.fingerprint = fp :=
    ⟨g, (mem_stream input g).mpr ⟨l, hl, hg⟩, hfp⟩
  obtain ⟨e, he, hefp⟩ := (dedupMerge_fps (heapMerge (input.map sortByFp)) fp).mpr hstream
  refine ⟨e, he, hefp,
    fun e' he' hfp' =>
      pairwise_fpLt_unique (mergeSeries_sorted_fpLt input) e' he' e he (by rw [hfp', hefp]),
    fun c => ?_⟩
  constructor
  · intro hc
    obtain ⟨g', hg', h1, h2⟩ :=
      (dedupMerge_mem_refs (heapMerge (input.map sortByFp)) fp c).mp ⟨e, he, hefp, hc⟩
    obtain ⟨l', hl', hgl⟩ := (mem_stream input g').mp hg'
    exact ⟨l', hl', g', hgl, h1, h2⟩
  · rintro ⟨l', hl', g', hg', h1, h2⟩
    obtain ⟨e2, he2, h3, h4⟩ :=
      (dedupMerge_mem_refs (heapMerge (input.map sortByFp)) fp c).mpr
        ⟨g', (mem_stream input g').mpr ⟨l', hl', hg'⟩, h1, h2⟩
    have : e2 = e :=
      pairwise_fpLt_unique (mergeSeries_sorted_fpLt input) e2 he2 e he (by rw [h3, hefp])
    rwa [this] at h4

/-- C1: for every list of per-shard result lists, each individually sorted
ascending by Fingerprint, `mergeSeries` returns a list sorted strictly
ascending by Fingerprint (hence with at most one entry per Fingerprint
value). -/
theorem mergeSeries_sorted_nodup (input : List (List GroupedChunkRefs))
    (h : ∀ l ∈ input, l.Pairwise fpLe) :
    (mergeSeries input).Pairwise fpLt ∧
    (mergeSeries input).Pairwise (fun a b => a.fingerprint ≠ b.fingerprint) :=
  ⟨mergeSeries_sorted_fpLt input, (mergeSeries_sorted_fpLt input).imp fun h => Nat.ne_of_lt h⟩

/-- Witness for C1 at two one-shard inputs sharing fingerprint 2. -/
theorem mergeSeries_sorted_nodup_witness :
    (∀ l ∈ ([[⟨1, "a", [1]⟩, ⟨2, "a", []⟩], [⟨2, "b", [3]⟩]] : List (List GroupedChunkRefs)),
      l.Pairwise fpLe) ∧
    ((mergeSeries [[⟨1, "a", [1]⟩, ⟨2, "a", []⟩], [⟨2, "b", [3]⟩]]).Pairwise fpLt ∧
     (mergeSeries [[⟨1, "a", [1]⟩, ⟨2, "a", []⟩], [⟨2, "b", [3]⟩]]).Pairwise
       (fun a b => a.fingerprint ≠ b.fingerprint)) :=
  ⟨by decide, mergeSeries_sorted_nodup _ (by decide)⟩

/-- C2: for every Fingerprint present in the inputs (each list sorted by
Fingerprint, each entry's ChunkRefs sorted and duplicate-free), the single
merged output entry for that Fingerprint has ChunkRefs equal to the sorted,
duplicate-free union of all contributing entries' ChunkRefs (stated as: a
unique entry, strictly sorted refs, membership exactly the union); and the
concrete scenario {10, [c1, c2]} merged with {10, [c2, c3]} yields the one
entry {10, [c1, c2, c3]}. -/
theorem mergeSeries_union_per_fingerprint (input : List (List GroupedChunkRefs)) (fp : Nat)
    (hsort : ∀ l ∈ input, l.Pairwise fpLe)
    (hrefs : ∀ l ∈ input, ∀ g ∈ l, g.refs.Pairwise (· < ·))
    (hpresent : ∃ l ∈ input, ∃ g ∈ l, g.fingerprint = fp) :
    (∃ e ∈ mergeSeries input, e.fingerprint = fp ∧
      (∀ e' ∈ mergeSeries input, e'.fingerprint = fp → e' = e) ∧
      e.refs.Pairwise (· < ·) ∧
      ∀ c, c ∈ e.refs ↔ ∃ l ∈ input, ∃ g ∈ l, g.fingerprint = fp ∧ c ∈ g.refs) ∧
    mergeSeries [[⟨10, "t", [1, 2]⟩], [⟨10, "t", [2, 3]⟩]] = [⟨10, "t", [1, 2, 3]⟩] := by
  obtain ⟨e, he, h1, h2, h3⟩ := mergeSeries_entry input fp hpresent
  exact ⟨⟨e, he, h1, h2, mergeSeries_refs_sorted input hrefs e he, h3⟩, rfl⟩

/-- Witness for C2 at the scenario input itself, fingerprint 10. -/
theorem mergeSeries_union_per_fingerprint_witness :
    ((∀ l ∈ ([[⟨10, "t", [1, 2]⟩], [⟨10, "t", [2, 3]⟩]] : List (List GroupedChunkRefs)),
        l.Pairwise fpLe) ∧
     (∀ l ∈ ([[⟨10, "t", [1, 2]⟩], [⟨10, "t", [2, 3]⟩]] : List (List GroupedChunkRefs)),
        ∀ g ∈ l, g.refs.Pairwise (· < ·))) ∧
    ((∃ e ∈ mergeSeries [[⟨10, "t", [1, 2]⟩], [⟨10, "t", [2, 3]⟩]], e.fingerprint = 10 ∧
        (∀ e' ∈ mergeSeries [[⟨10, "t", [1, 2]⟩], [⟨10, "t", [2, 3]⟩]],
          e'.fingerprint = 10 → e' = e) ∧
        e.refs.Pairwise (· < ·) ∧
        ∀ c, c ∈ e.refs ↔ ∃ l ∈ ([[⟨10, "t", [1, 2]⟩], [⟨10, "t", [2, 3]⟩]] :
          List (List GroupedChunkRefs)), ∃ g ∈ l, g.fingerprint = 10 ∧ c ∈ g.refs) ∧
     mergeSeries [[⟨10, "t", [1, 2]⟩], [⟨10, "t", [2, 3]⟩]] = [⟨10, "t", [1, 2, 3]⟩]) :=
  ⟨⟨by decide, by decide⟩,
    mergeSeries_union_per_fingerprint _ 10 (by decide) (by decide)
      ⟨[⟨10, "t", [1, 2]⟩], by decide, ⟨10, "t", [1, 2]⟩, by decide, rfl⟩⟩

theorem merge2_self_doubled : ∀ (fuel : Nat) (l : List GroupedChunkRefs),
    l.length + l.length ≤ fuel → l.Pairwise fpLt → mergeFpStreams fuel l l = doubled l
  | 0, l, hf, _ => by
    have : l = [] := List.length_eq_zero.mp (by omega)
    subst this; simp [mergeFpStreams, doubled]
  | _ + 1, [], _, _ => by simp [mergeFpStreams, doubled]
  | fuel + 1, a :: t, hf, hs => by
    simp only [List.length_cons] at hf
    rw [List.pairwise_cons] at hs
    show mergeFpStreams (fuel + 1) (a :: t) (a :: t) = a :: a :: doubled t
    rw [show mergeFpStreams (fuel + 1) (a :: t) (a :: t)
        = a :: mergeFpStreams fuel t (a :: t) from by simp [mergeFpStreams]]
    congr 1
    cases t with
    | nil =>
      cases fuel with
      | zero => omega
      | succ f => simp [mergeFpStreams, doubled]
    | cons b t' =>
      have hab : a.fingerprint < b.fingerprint := hs.1 b (List.mem_cons_self _ _)
      cases fuel with
      | zero => simp only [List.length_cons] at hf; omega
      | succ f =>
        rw [show mergeFpStreams (f + 1) (b :: t') (a :: b :: t')
            = a :: mergeFpStreams f (b :: t') (b :: t') from by
          simp [mergeFpStreams, Nat.not_le.mpr hab]]
        congr 1
        exact merge2_self_doubled f (b :: t')
          (by simp only [List.length_cons] at hf ⊢; omega) hs.2

/-- C8: merging is idempotent: for a result list L sorted strictly ascending
by Fingerprint with each entry's ChunkRefs sorted and duplicate-free,
`mergeSeries [L, L] = L` (same Fingerprint set, each entry's ChunkRefs equal
to the original). -/
theorem mergeSeries_idempotent (L : List GroupedChunkRefs)
    (hs : L.Pairwise fpLt) (hr : ∀ g ∈ L, g.refs.Pairwise (· < ·)) :
    mergeSeries [L, L] = L := by
  have hle : L.Pairwise fpLe := hs.imp fun h => Nat.le_of_lt h
  have hsort : sortByFp L = L := sortByFp_eq hle
  have hstream : heapMerge ([L, L].map sortByFp) = doubled L := by
    simp only [List.map_cons, List.map_nil, hsort]
    show merge2 L (merge2 L []) = doubled L
    rw [merge2_nil_right]
    exact merge2_self_doubled _ L le_rfl hs
  unfold mergeSeries
  rw [hstream]
  exact dedupMerge_doubled hs hr

/-- Witness for C8 at L = [{5, [1, 2]}, {9, [3]}]. -/
theorem mergeSeries_idempotent_witness :
    (([⟨5, "t", [1, 2]⟩, ⟨9, "t", [3]⟩] : List GroupedChunkRefs).Pairwise fpLt ∧
     ∀ g ∈ ([⟨5, "t", [1, 2]⟩, ⟨9, "t", [3]⟩] : List GroupedChunkRefs),
       g.refs.Pairwise (· < ·)) ∧
    mergeSeries [[⟨5, "t", [1, 2]⟩, ⟨9, "t", [3]⟩], [⟨5, "t", [1, 2]⟩, ⟨9, "t", [3]⟩]]
      = [⟨5, "t", [1, 2]⟩, ⟨9, "t", [3]⟩] :=
  ⟨⟨by decide, by decide⟩, mergeSeries_idempotent _ (by decide) (by decide)⟩

/-! ## Lemmas about FilterChunks -/

theorem partitionGo_error_of_failure (env : Env) :
    ∀ (blocks : List BlockWithSeries) (servers : List AddrWithGroups) (evs : List Event)
      (b : BlockWithSeries) (e : String),
      b ∈ blocks → env.addrOf b.block = .error e →
      ∃ e', (partitionGo env blocks servers evs).1 = .error e'
  | [], _, _, b, _, hb, _ => absurd hb (List.not_mem_nil b)
  | bws :: rest, servers, evs, b, e, hb, herr => by
    simp only [partitionGo]
    cases haddr : env.addrOf bws.block with
    | error e2 => exact ⟨_, rfl⟩
    | ok addr =>
      rcases List.mem_cons.mp hb with heq | hb'
      · rw [heq] at herr
        rw [herr] at haddr
        cases haddr
      · exact partitionGo_error_of_failure env rest _ _ b e hb' herr

theorem partitionGo_events_no_rpc (env : Env) :
    ∀ (blocks : List BlockWithSeries) (servers : List AddrWithGroups) (evs : List Event),
      (∀ ev ∈ evs, ev.isRpc = false) →
      ∀ ev ∈ (partitionGo env blocks servers evs).2, ev.isRpc = false
  | [], _, _, h, ev, hev => h ev hev
  | bws :: rest, servers, evs, h, ev, hev => by
    have hstep : ∀ ev' ∈ evs ++ [Event.route bws.block], ev'.isRpc = false := by
      intro ev' hev'
      rcases List.mem_append.mp hev' with h1 | h1
      · exact h ev' h1
      · simp only [List.mem_singleton] at h1
        rw [h1]; rfl
    simp only [partitionGo] at hev
    cases haddr : env.addrOf bws.block with
    | error e =>
      rw [haddr] at hev
      exact hstep ev hev
    | ok addr =>
      rw [haddr] at hev
      exact partitionGo_events_no_rpc env rest _ _ hstep ev hev

theorem partitionGo_ok_of_routable (env : Env) :
    ∀ (blocks : List BlockWithSeries) (servers : List AddrWithGroups) (evs : List Event),
      (∀ b ∈ blocks, ∃ a, env.addrOf b.block = .ok a) →
      ∃ servers' evs', partitionGo env blocks servers evs = (.ok servers', evs')
  | [], servers, evs, _ => ⟨servers, evs, rfl⟩
  | bws :: rest, servers, evs, h => by
    obtain ⟨a, ha⟩ := h bws (List.mem_cons_self _ _)
    simp only [partitionGo, ha]
    exact partitionGo_ok_of_routable env rest _ _ (fun b hb => h b (List.mem_cons_of_mem _ hb))

theorem shardJob_ok (env : Env) (interval : Interval) (plan : String) (rs : AddrWithGroups)
    (cl : RpcClient) (hcl : env.getClientFor rs.addr = .ok cl) :
    shardJob env interval plan rs =
      (none,
       some (match cl (mkShardRequest interval plan rs) with
             | .error _ => sortByFp rs.groups
             | .ok refs => refs),
       [.rpc rs.addr (mkShardRequest interval plan rs)]) := by
  simp only [shardJob, doForAddrs, doForAddrsGo, hcl]
  cases hrpc : cl (mkShardRequest interval plan rs) <;> simp [hrpc]

theorem runShards_no_error (env : Env) (interval : Interval) (plan : String)
    (hclient : ∀ addr, ∃ cl, env.getClientFor addr = .ok cl) :
    ∀ servers : List AddrWithGroups, (runShards env interval plan servers).2.1 = none
  | [] => rfl
  | rs :: rest => by
    obtain ⟨cl, hcl⟩ := hclient rs.addr
    simp only [runShards, shardJob_ok env interval plan rs cl hcl]
    simpa using runShards_no_error env interval plan hclient rest

theorem runShards_slot_of_rpc_error (env : Env) (interval : Interval) (plan : String)
    (hclient : ∀ addr, ∃ cl, env.getClientFor addr = .ok cl) :
    ∀ (servers : List AddrWithGroups) (rs : AddrWithGroups), rs ∈ servers →
      ∀ cl, env.getClientFor rs.addr = .ok cl →
      ∀ err, cl (mkShardRequest interval plan rs) = .error err →
      sortByFp rs.groups ∈ (runShards env interval plan servers).1.map (fun slot => slot.getD [])
  | [], rs, hrs, _, _, _, _ => absurd hrs (List.not_mem_nil rs)
  | rs0 :: rest, rs, hrs, cl, hcl, err, herr => by
    rcases List.mem_cons.mp hrs with heq | hrs'
    · subst heq
      simp only [runShards, shardJob_ok env interval plan rs cl hcl, herr]
      simp
    · obtain ⟨cl0, hcl0⟩ := hclient rs0.addr
      simp only [runShards, shardJob_ok env interval plan rs0 cl0 hcl0]
      simp only [List.map_cons, List.mem_cons]
      exact Or.inr
        (runShards_slot_of_rpc_error env interval plan hclient rest rs hrs' cl hcl err herr)

theorem FilterChunks_ok (env : Env) (t : String) (i : Interval)
    (blocks : List BlockWithSeries) (p : String)
    (hroute : ∀ b ∈ blocks, ∃ a, env.addrOf b.block = .ok a)
    (hclient : ∀ addr, ∃ cl, env.getClientFor addr = .ok cl) :
    (FilterChunks env t i blocks p).1 =
      .ok (mergeSeries ((runShards env i p (partitionServers env blocks)).1.map
        (fun slot => slot.getD []))) := by
  by_cases hne : blocks.isEmpty
  · have : blocks = [] := List.isEmpty_iff.mp hne
    subst this
    rfl
  · obtain ⟨servers', evs', hpart⟩ := partitionGo_ok_of_routable env blocks [] [] hroute
    have hps : partitionServers env blocks = servers' := by
      unfold partitionServers
      rw [hpart]
    unfold FilterChunks
    rw [if_neg (by simpa using hne), hpart, hps]
    simp only [runShards_no_error env i p hclient servers']

/-! ## The claims about FilterChunks and doForAddrs -/

/-- C6: for the empty block-assignment list, FilterChunks returns the empty
(nil) result and nil error immediately, with an empty event trace: no
routing lookup is performed and zero RPCs are issued, for every environment. -/
theorem filterChunks_empty_input (env : Env) (t : String) (i : Interval) (p : String) :
    FilterChunks env t i [] p = (.ok [], []) := rfl

/-- C9: the tenant argument does not influence the call: two invocations
differing only in the tenant string produce identical results and identical
event traces (hence identical outbound requests) — the source discards the
parameter (`_ string`) and never forwards it. -/
theorem filterChunks_tenant_independent (env : Env) (t1 t2 : String) (i : Interval)
    (blocks : List BlockWithSeries) (p : String) :
    FilterChunks env t1 i blocks p = FilterChunks env t2 i blocks p := rfl

/-- C10: calling `doForAddrs` with an empty candidate list returns nil
(success) and an unchanged state for every callback and every client source:
the callback is never invoked and no error is reported. -/
theorem doForAddrs_empty {σ : Type} (getClientFor : String → Except String RpcClient)
    (fn : RpcClient → σ → Option String × σ) (s : σ) :
    doForAddrs getClientFor [] fn s = (none, s) := rfl

/-- C7: if the router fails to resolve an owner address for some block of a
call, FilterChunks aborts the whole call with an error (nil result) and its
trace contains no RPC event. -/
theorem filterChunks_routing_failfast (env : Env) (t : String) (i : Interval)
    (blocks : List BlockWithSeries) (p : String) (b : BlockWithSeries) (e : String)
    (hb : b ∈ blocks) (herr : env.addrOf b.block = .error e) :
    (∃ e', (FilterChunks env t i blocks p).1 = .error e') ∧
    ∀ ev ∈ (FilterChunks env t i blocks p).2, ev.isRpc = false := by
  have hne : blocks.isEmpty = false := by
    cases blocks with
    | nil => cases hb
    | cons x xs => rfl
  obtain ⟨e', hpart1⟩ := partitionGo_error_of_failure env blocks [] [] b e hb herr
  have hev := partitionGo_events_no_rpc env blocks [] [] (by intro ev h; cases h)
  rcases hp : partitionGo env blocks [] [] with ⟨res, evs⟩
  rw [hp] at hpart1 hev
  simp only at hpart1
  subst hpart1
  unfold FilterChunks
  rw [if_neg (by simp [hne]), hp]
  exact ⟨⟨e', rfl⟩, hev⟩

/-- Witness for C7 at a one-block call whose routing lookup fails. -/
theorem filterChunks_routing_failfast_witness :
    ((⟨"b1", [⟨5, "t", [1, 2]⟩]⟩ : BlockWithSeries) ∈ blocksRoute ∧
     envRoute.addrOf "b1" = .error "no address") ∧
    ((∃ e', (FilterChunks envRoute "t" ⟨0, 1⟩ blocksRoute "p").1 = .error e') ∧
     ∀ ev ∈ (FilterChunks envRoute "t" ⟨0, 1⟩ blocksRoute "p").2, ev.isRpc = false) :=
  ⟨⟨List.mem_cons_self _ _, rfl⟩,
    filterChunks_routing_failfast envRoute "t" ⟨0, 1⟩ blocksRoute "p" _ _
      (List.mem_cons_self _ _) rfl⟩

/-- Counterexample for C4: routing succeeds for the only block (no
RoutingError) and the model has no orchestration failure, yet FilterChunks
returns the per-shard connection error as the call-level error — a
ConnectionError on a shard's only candidate address is NOT contained. -/
theorem filterChunks_connection_error_propagates :
    envConn.addrOf "b1" = .ok "a1" ∧
    (FilterChunks envConn "t" ⟨0, 1⟩ blocksConn "p").1 = .error "connection refused" :=
  ⟨rfl, rfl⟩

/-- C4 (amended): after the empty-input check, a call-level error of
FilterChunks can arise only from a RoutingError, an OrchestrationError, or a
per-shard ConnectionError that exhausted the shard's candidate addresses; a
ShardRPCError (RPC failure after a client was obtained) is contained and
converted to fail-open: when routing and client acquisition succeed for all
shards, the call succeeds regardless of every RPC outcome. -/
theorem filterChunks_error_sources (env : Env) (t : String) (i : Interval)
    (blocks : List BlockWithSeries) (p : String)
    (hroute : ∀ b ∈ blocks, ∃ a, env.addrOf b.block = .ok a)
    (hclient : ∀ addr, ∃ cl, env.getClientFor addr = .ok cl) :
    ∃ res, (FilterChunks env t i blocks p).1 = .ok res :=
  ⟨_, FilterChunks_ok env t i blocks p hroute hclient⟩

/-- Witness for the amended C4 at a call whose only shard's RPC fails. -/
theorem filterChunks_error_sources_witness :
    ((∀ b ∈ blocksAmend, ∃ a, envAmend.addrOf b.block = .ok a) ∧
     (∀ addr, ∃ cl, envAmend.getClientFor addr = .ok cl)) ∧
    ∃ res, (FilterChunks envAmend "t" ⟨0, 1⟩ blocksAmend "p").1 = .ok res :=
  ⟨⟨fun b _ => ⟨b.block, rfl⟩, fun _ => ⟨_, rfl⟩⟩,
    filterChunks_error_sources envAmend "t" ⟨0, 1⟩ blocksAmend "p"
      (fun b _ => ⟨b.block, rfl⟩) (fun _ => ⟨_, rfl⟩)⟩

/-- C5: a shard whose filter RPC fails does not fail the call; its original
unfiltered groups survive into the merged output (fail-open).  In the
concrete scenario with two shards where shard 2's RPC fails, shard 1
returning the filtered {5, [c1]} and shard 2's unfiltered input being
{20, [c4, c5]}, the output is [{5, [c1]}, {20, [c4, c5]}] sorted ascending. -/
theorem filterChunks_fail_open (env : Env) (t : String) (i : Interval)
    (blocks : List BlockWithSeries) (p : String)
    (hroute : ∀ b ∈ blocks, ∃ a, env.addrOf b.block = .ok a)
    (hclient : ∀ addr, ∃ cl, env.getClientFor addr = .ok cl) :
    FailOpen env t i blocks p ∧
    (FilterChunks envB "t" ⟨0, 1⟩ blocksB "p").1 = .ok [⟨5, "t", [1]⟩, ⟨20, "t", [4, 5]⟩] := by
  refine ⟨⟨_, FilterChunks_ok env t i blocks p hroute hclient, ?_⟩, rfl⟩
  intro rs hrs cl hcl err herr g hg
  have hslot := runShards_slot_of_rpc_error env i p hclient
    (partitionServers env blocks) rs hrs cl hcl err herr
  have hgin : g ∈ sortByFp rs.groups := (mem_sortByFp rs.groups g).mpr hg
  obtain ⟨e, he, hefp, _, hchar⟩ :=
    mergeSeries_entry ((runShards env i p (partitionServers env blocks)).1.map
      (fun slot => slot.getD [])) g.fingerprint
      ⟨sortByFp rs.groups, hslot, g, hgin, rfl⟩
  exact ⟨e, he, hefp.symm ▸ rfl, fun c hc =>
    (hchar c).mpr ⟨sortByFp rs.groups, hslot, g, hgin, rfl, hc⟩⟩

/-- Witness for C5 at the scenario environment itself. -/
theorem filterChunks_fail_open_witness :
    ((∀ b ∈ blocksB, ∃ a, envB.addrOf b.block = .ok a) ∧
     (∀ addr, ∃ cl, envB.getClientFor addr = .ok cl)) ∧
    (FailOpen envB "t" ⟨0, 1⟩ blocksB "p" ∧
     (FilterChunks envB "t" ⟨0, 1⟩ blocksB "p").1 = .ok [⟨5, "t", [1]⟩, ⟨20, "t", [4, 5]⟩]) :=
  ⟨⟨fun b _ => ⟨b.block, rfl⟩, fun _ => ⟨clientB, rfl⟩⟩,
    filterChunks_fail_open envB "t" ⟨0, 1⟩ blocksB "p"
      (fun b _ => ⟨b.block, rfl⟩) (fun _ => ⟨clientB, rfl⟩)⟩

end BloomGateway
